import Mathlib

/-!
Shallow embedding of the `strong-units` Rust library (src/lib.rs, src/macros.rs,
src/units.rs).

Units are zero-sized Rust types; we model the closed universe of unit types that
the crate declares (`define_unit!` in units.rs), the generic `DivUnit<N, D>`
ratio type, and the alias units (`define_alias!`), as one inductive type `MUnit`.

Conversion relations are Rust trait impls of `FromUnit<U> for V`; we model trait
resolution as a function `from_value? target source : ℚ → Option ℚ`, where
`none` models "no impl, the program does not compile".  Magnitudes are modelled
as exact rationals standing in for `f64`.
-/

/-- The unit types declared by the crate: the base units of units.rs, the
generic ratio type `DivUnit<N, D>` from lib.rs, and the alias units of
units.rs (`Bps` .. `Tbps`). -/
inductive MUnit : Type where
  | Second | Minute | Hour
  | Bit | Kilobit | Megabit | Gigabit | Terabit | Petabit | Exabit | Zettabit | Yottabit
  | Byte | Kilobyte | Megabyte | Gigabyte | Terabyte | Petabyte | Exabyte | Zettabyte | Yottabyte
  | Kibibyte | Mebibyte | Gibibyte | Tebibyte | Pebibyte | Exbibyte | Zebibyte | Yobibyte
  | Div (n d : MUnit)
  | Bps | Kbps | Mbps | Gbps | Tbps
  deriving DecidableEq, Repr

namespace MUnit

/-- `MeasureUnit::symbol`, per the `define_unit!` / `define_alias!` invocations
in units.rs and the `MeasureUnit for DivUnit` impl in lib.rs (numerator symbol,
`"/"`, denominator symbol). -/
def symbol : MUnit → String
  | Second => "s"
  | Minute => "min"
  | Hour => "h"
  | Bit => "b"
  | Kilobit => "Kb"
  | Megabit => "Mb"
  | Gigabit => "Gb"
  | Terabit => "Tb"
  | Petabit => "Pb"
  | Exabit => "Eb"
  | Zettabit => "Zb"
  | Yottabit => "Yb"
  | Byte => "B"
  | Kilobyte => "KB"
  | Megabyte => "MB"
  | Gigabyte => "GB"
  | Terabyte => "TB"
  | Petabyte => "PB"
  | Exabyte => "EB"
  | Zettabyte => "ZB"
  | Yottabyte => "YB"
  | Kibibyte => "KiB"
  | Mebibyte => "MiB"
  | Gibibyte => "GiB"
  | Tebibyte => "TiB"
  | Pebibyte => "PiB"
  | Exbibyte => "EiB"
  | Zebibyte => "ZiB"
  | Yobibyte => "YiB"
  | Div n d => n.symbol ++ "/" ++ d.symbol
  | Bps => "bps"
  | Kbps => "Kbps"
  | Mbps => "Mbps"
  | Gbps => "Gbps"
  | Tbps => "Tbps"

/-- `MeasureUnit::AliasedUnit`: the defaulted associated type is `Self`; the
alias units declared with `define_alias!` point at their underlying
`DivUnit`. -/
def aliasedUnit : MUnit → MUnit
  | Bps => Div Bit Second
  | Kbps => Div Kilobit Second
  | Mbps => Div Megabit Second
  | Gbps => Div Gigabit Second
  | Tbps => Div Terabit Second
  | u => u

/-- Whether the unit was declared with `define_alias!` (its `AliasedUnit`
differs from itself). -/
def isAlias : MUnit → Bool
  | Bps | Kbps | Mbps | Gbps | Tbps => true
  | _ => false

end MUnit

open MUnit

/-- The `define_linear_conversions!` family for time in units.rs:
`(Second, 1), (Minute, 60), (Hour, 3600)`. -/
def timeFamily : List (MUnit × ℚ) :=
  [(Second, 1), (Minute, 60), (Hour, 3600)]

/-- The `define_linear_conversions!` family for data sizes in units.rs
(bits, bytes and power-of-two bytes share the one declaration). -/
def bitsFamily : List (MUnit × ℚ) :=
  [(Bit, 1), (Kilobit, 1000), (Megabit, 1000000), (Gigabit, 1000000000),
   (Terabit, 1000000000000), (Petabit, 1000000000000000),
   (Exabit, 1000000000000000000), (Zettabit, 1000000000000000000000),
   (Yottabit, 1000000000000000000000000),
   (Byte, 8), (Kilobyte, 8000), (Megabyte, 8000000), (Gigabyte, 8000000000),
   (Terabyte, 8000000000000), (Petabyte, 8000000000000000),
   (Exabyte, 8000000000000000000), (Zettabyte, 8000000000000000000000),
   (Yottabyte, 8000000000000000000000000),
   (Kibibyte, 8192), (Mebibyte, 8388608), (Gibibyte, 8589934592),
   (Tebibyte, 8796093022208), (Pebibyte, 9007199254740992),
   (Exbibyte, 9223372036854775808), (Zebibyte, 9444732965739290427392),
   (Yobibyte, 9671406556917033397649408)]

/-- The linear families declared in units.rs, in declaration order. -/
def families : List (List (MUnit × ℚ)) := [timeFamily, bitsFamily]

/-- The scale factor a family declaration assigns to a unit, if the unit is a
member of that family. -/
def scaleIn (fam : List (MUnit × ℚ)) (u : MUnit) : Option ℚ :=
  (fam.find? (fun p => p.1 == u)).map (fun p => p.2)

/-- The scale factor of a unit across the declared families (each unit of
units.rs belongs to at most one family). -/
def scaleOf (u : MUnit) : Option ℚ :=
  match scaleIn timeFamily u with
  | some s => some s
  | none => scaleIn bitsFamily u

/-- `FromUnitLinear<src> for tgt` holds exactly when one
`define_linear_conversions!` declaration contains both units (the macro emits
the marker impl for every ordered pair of its cartesian product). -/
def fromUnitLinear (tgt src : MUnit) : Bool :=
  ((scaleIn timeFamily src).isSome && (scaleIn timeFamily tgt).isSome)
    || ((scaleIn bitsFamily src).isSome && (scaleIn bitsFamily tgt).isSome)

/-- The conversion function the linear-family macro generates:
`input.value() * (lmul as f64) / (rmul as f64)` (macros.rs, @impl_from_unit). -/
def linConv (tgt src : MUnit) (v : ℚ) : ℚ :=
  v * ((scaleOf src).getD 1) / ((scaleOf tgt).getD 1)

/-- Trait resolution for `FromUnit<source> for target` after source-side alias
unwrapping, returning the converted value when an impl exists:
- the linear-family impls (macros.rs, @impl_from_unit);
- the ratio-synthesis impl `FromUnit<DivUnit<N, D>> for DivUnit<N1, D1>`
  (lib.rs lines 95-107), available iff `N1: FromUnitLinear<N>` and
  `D1: FromUnitLinear<D>`, which converts the magnitude as a numerator value
  and divides by the conversion of a denominator reference value `1.0`. -/
def divUnitImpl (tgt src : MUnit) (v : ℚ) : Option ℚ :=
  match tgt, src with
  | .Div n1 d1, .Div n d =>
      if fromUnitLinear n1 n && fromUnitLinear d1 d then
        some (linConv n1 n v / linConv d1 d 1)
      else none
  | _, _ => none

/-- Trait resolution continued: the linear-family impls take precedence where
declared (the impl sets are disjoint in the crate); otherwise only the
DivUnit impl can apply. -/
def fromUnitCore (tgt src : MUnit) (v : ℚ) : Option ℚ :=
  if fromUnitLinear tgt src then some (linConv tgt src v)
  else divUnitImpl tgt src v

/-- `FromUnit<source>::from_value` dispatch for a target unit: the blanket
alias impl (macros.rs, define_alias!) forwards a source alias to its underlying
unit at the same magnitude; otherwise the core impls apply. -/
def from_value? (tgt src : MUnit) (v : ℚ) : Option ℚ :=
  fromUnitCore tgt src.aliasedUnit v

/-- `Measurement::into_unit::<target>`: resolves the conversion against the
target's `AliasedUnit` and rewraps the value under the target unit
(lib.rs lines 124-131). `none` models "no impl: does not compile". -/
def into_unit (tgt src : MUnit) (v : ℚ) : Option ℚ :=
  from_value? tgt.aliasedUnit src v

/-- A `Measurement<U>`: the unit tag made explicit, plus the `f64` magnitude
modelled as an exact rational. -/
structure Measurement where
  unit : MUnit
  value : ℚ
  deriving DecidableEq, Repr

namespace Measurement

/-- `Add for Measurement` (lib.rs 133-143): converts the right operand into the
left unit and adds; the result carries the left unit. -/
def add (a b : Measurement) : Option Measurement :=
  (into_unit a.unit b.unit b.value).map (fun w => ⟨a.unit, a.value + w⟩)

/-- `AddAssign for Measurement` (lib.rs 145-152): the value the left operand
holds after `a += b`. -/
def addAssign (a b : Measurement) : Option Measurement :=
  (into_unit a.unit b.unit b.value).map (fun w => ⟨a.unit, a.value + w⟩)

/-- `Sub for Measurement` (lib.rs 154-163). -/
def sub (a b : Measurement) : Option Measurement :=
  (into_unit a.unit b.unit b.value).map (fun w => ⟨a.unit, a.value - w⟩)

/-- `SubAssign for Measurement` (lib.rs 165-172). -/
def subAssign (a b : Measurement) : Option Measurement :=
  (into_unit a.unit b.unit b.value).map (fun w => ⟨a.unit, a.value - w⟩)

/-- `Mul<f64> for Measurement` (lib.rs 174-180). -/
def mul (a : Measurement) (s : ℚ) : Measurement :=
  ⟨a.unit, a.value * s⟩

/-- `MulAssign<f64> for Measurement` (lib.rs 182-186). -/
def mulAssign (a : Measurement) (s : ℚ) : Measurement :=
  ⟨a.unit, a.value * s⟩

/-- `Div<f64> for Measurement` (lib.rs 188-194). -/
def div (a : Measurement) (s : ℚ) : Measurement :=
  ⟨a.unit, a.value / s⟩

/-- `DivAssign<f64> for Measurement` (lib.rs 196-200). -/
def divAssign (a : Measurement) (s : ℚ) : Measurement :=
  ⟨a.unit, a.value / s⟩

/-- `PartialEq for Measurement` (lib.rs 222-229): compares the left magnitude
with the right operand converted into the left unit. -/
def peq (a b : Measurement) : Option Bool :=
  (into_unit a.unit b.unit b.value).map (fun w => a.value == w)

/-- `PartialOrd for Measurement` (lib.rs 213-220): `partial_cmp` of the left
magnitude against the right operand converted into the left unit (over exact
rationals the underlying float comparison is total). -/
def pcmp (a b : Measurement) : Option Ordering :=
  (into_unit a.unit b.unit b.value).map (fun w => compare a.value w)

/-- `Display for Measurement` (lib.rs 202-211): default float rendering of the
value (abstracted as `render`), a space, the unit's symbol. -/
def display (render : ℚ → String) (a : Measurement) : String :=
  render a.value ++ " " ++ a.unit.symbol

end Measurement

/-! ### Lemmas about the family lookup tables -/

theorem scaleIn_of_mem {fam : List (MUnit × ℚ)} {u : MUnit} {s : ℚ}
    (hnd : (fam.map Prod.fst).Nodup) (hm : (u, s) ∈ fam) :
    scaleIn fam u = some s := by
  induction fam with
  | nil => cases hm
  | cons a l ih =>
    rw [List.map_cons, List.nodup_cons] at hnd
    rcases List.mem_cons.mp hm with h | h
    · unfold scaleIn
      rw [List.find?_cons_of_pos (p := fun q : MUnit × ℚ => q.1 == u) _
        (by rw [← h]; exact beq_self_eq_true u)]
      rw [← h]
      rfl
    · have hne : ¬ ((fun p => p.1 == u) a) = true := by
        intro he
        exact hnd.1 ((beq_iff_eq.mp he) ▸ List.mem_map.mpr ⟨(u, s), h, rfl⟩)
      unfold scaleIn
      rw [List.find?_cons_of_neg (p := fun q : MUnit × ℚ => q.1 == u) _ hne]
      exact ih hnd.2 h

theorem mem_of_scaleIn {fam : List (MUnit × ℚ)} {u : MUnit} {s : ℚ}
    (h : scaleIn fam u = some s) : (u, s) ∈ fam := by
  unfold scaleIn at h
  cases hf : fam.find? (fun p => p.1 == u) with
  | none => rw [hf] at h; cases h
  | some p =>
    rw [hf] at h
    have hp := List.find?_some hf
    have hmem : p ∈ fam := List.mem_of_find?_eq_some hf
    obtain ⟨p1, p2⟩ := p
    simp only [Option.map_some', Option.some.injEq] at h
    have : p1 = u := beq_iff_eq.mp hp
    rw [← this, ← h]
    exact hmem

theorem timeFamily_keys_nodup : (timeFamily.map Prod.fst).Nodup := by decide

theorem bitsFamily_keys_nodup : (bitsFamily.map Prod.fst).Nodup := by decide

theorem timeFamily_scales_ne_zero : ∀ p ∈ timeFamily, p.2 ≠ 0 := by decide

theorem bitsFamily_scales_ne_zero : ∀ p ∈ bitsFamily, p.2 ≠ 0 := by decide

theorem timeFamily_no_alias : ∀ p ∈ timeFamily, p.1.aliasedUnit = p.1 := by decide

theorem bitsFamily_no_alias : ∀ p ∈ bitsFamily, p.1.aliasedUnit = p.1 := by decide

theorem bitsFamily_not_in_timeFamily :
    ∀ p ∈ bitsFamily, scaleIn timeFamily p.1 = none := by decide

/-! ### Resolution lemmas -/

theorem scaleOf_of_time {u : MUnit} {s : ℚ} (h : scaleIn timeFamily u = some s) :
    scaleOf u = some s := by
  unfold scaleOf
  rw [h]

theorem scaleOf_of_bits {u : MUnit} {s : ℚ} (h : scaleIn bitsFamily u = some s) :
    scaleOf u = some s := by
  have ht : scaleIn timeFamily u = none :=
    bitsFamily_not_in_timeFamily (u, s) (mem_of_scaleIn h)
  unfold scaleOf
  rw [ht, h]

theorem aliasedUnit_of_time {u : MUnit} {s : ℚ} (h : scaleIn timeFamily u = some s) :
    u.aliasedUnit = u :=
  timeFamily_no_alias (u, s) (mem_of_scaleIn h)

theorem aliasedUnit_of_bits {u : MUnit} {s : ℚ} (h : scaleIn bitsFamily u = some s) :
    u.aliasedUnit = u :=
  bitsFamily_no_alias (u, s) (mem_of_scaleIn h)

theorem aliasedUnit_of_linear {t u : MUnit} (h : fromUnitLinear t u = true) :
    u.aliasedUnit = u := by
  rw [fromUnitLinear, Bool.or_eq_true, Bool.and_eq_true, Bool.and_eq_true] at h
  rcases h with ⟨h, _⟩ | ⟨h, _⟩
  · obtain ⟨s, hs⟩ := Option.isSome_iff_exists.mp h
    exact aliasedUnit_of_time hs
  · obtain ⟨s, hs⟩ := Option.isSome_iff_exists.mp h
    exact aliasedUnit_of_bits hs

/-- When `FromUnitLinear<src> for tgt` holds, `from_value?` is the
linear-family impl. -/
theorem from_value_of_linear {t u : MUnit} (h : fromUnitLinear t u = true) (v : ℚ) :
    from_value? t u v = some (linConv t u v) := by
  rw [from_value?, aliasedUnit_of_linear h, fromUnitCore, if_pos h]

/-- The conversion a linear family declaration registers for a member pair:
`value * scale(src) / scale(tgt)`. -/
theorem from_value_family {fam : List (MUnit × ℚ)} {u t : MUnit} {s r : ℚ}
    (hfam : fam ∈ families) (hu : (u, s) ∈ fam) (ht : (t, r) ∈ fam) (v : ℚ) :
    from_value? t u v = some (v * s / r) := by
  have hfam' : fam = timeFamily ∨ fam = bitsFamily := by
    simpa [families] using hfam
  rcases hfam' with rfl | rfl
  · have hsu : scaleIn timeFamily u = some s := scaleIn_of_mem timeFamily_keys_nodup hu
    have hst : scaleIn timeFamily t = some r := scaleIn_of_mem timeFamily_keys_nodup ht
    have hlin : fromUnitLinear t u = true := by
      rw [fromUnitLinear, hsu, hst]
      rfl
    rw [from_value_of_linear hlin v, linConv, scaleOf_of_time hsu, scaleOf_of_time hst]
    rfl
  · have hsu : scaleIn bitsFamily u = some s := scaleIn_of_mem bitsFamily_keys_nodup hu
    have hst : scaleIn bitsFamily t = some r := scaleIn_of_mem bitsFamily_keys_nodup ht
    have hlin : fromUnitLinear t u = true := by
      rw [fromUnitLinear, hsu, hst, Bool.or_eq_true]
      right
      rfl
    rw [from_value_of_linear hlin v, linConv, scaleOf_of_bits hsu, scaleOf_of_bits hst]
    rfl

/-- When `FromUnitLinear<u> for u` holds, the generated self-conversion is the
exact identity (both scale lookups hit the same nonzero factor). -/
theorem linConv_self {u : MUnit} (h : fromUnitLinear u u = true) (v : ℚ) :
    linConv u u v = v := by
  rw [fromUnitLinear, Bool.or_eq_true, Bool.and_eq_true, Bool.and_eq_true] at h
  have hs : ∃ s : ℚ, scaleOf u = some s ∧ s ≠ 0 := by
    rcases h with ⟨h, _⟩ | ⟨h, _⟩
    · obtain ⟨s, hs⟩ := Option.isSome_iff_exists.mp h
      exact ⟨s, scaleOf_of_time hs, timeFamily_scales_ne_zero (u, s) (mem_of_scaleIn hs)⟩
    · obtain ⟨s, hs⟩ := Option.isSome_iff_exists.mp h
      exact ⟨s, scaleOf_of_bits hs, bitsFamily_scales_ne_zero (u, s) (mem_of_scaleIn hs)⟩
  obtain ⟨s, hso, hs0⟩ := hs
  rw [linConv, hso, Option.getD_some, mul_div_assoc, div_self hs0, mul_one]

theorem scaleIn_timeFamily_div (n d : MUnit) :
    scaleIn timeFamily (MUnit.Div n d) = none := rfl

theorem scaleIn_bitsFamily_div (n d : MUnit) :
    scaleIn bitsFamily (MUnit.Div n d) = none := rfl

theorem fromUnitLinear_div_left (n d s : MUnit) :
    fromUnitLinear (MUnit.Div n d) s = false := by
  rw [fromUnitLinear, scaleIn_timeFamily_div, scaleIn_bitsFamily_div]
  simp

/-- The ratio-synthesis impl of lib.rs: when the numerator and denominator
relations are linear, the DivUnit conversion converts the magnitude as a
numerator value and divides by the converted denominator reference value 1. -/
theorem from_value_div {n d n1 d1 : MUnit}
    (hn : fromUnitLinear n1 n = true) (hd : fromUnitLinear d1 d = true) (v : ℚ) :
    from_value? (MUnit.Div n1 d1) (MUnit.Div n d) v
      = some (linConv n1 n v / linConv d1 d 1) := by
  have halias : (MUnit.Div n d).aliasedUnit = MUnit.Div n d := rfl
  rw [from_value?, halias, fromUnitCore,
    if_neg (by rw [fromUnitLinear_div_left]; exact Bool.false_ne_true)]
  have hc : (fromUnitLinear n1 n && fromUnitLinear d1 d) = true := by
    rw [hn, hd]
    rfl
  rw [divUnitImpl, if_pos hc]

theorem divUnitImpl_self (w : MUnit) (v : ℚ) (h : (divUnitImpl w w v).isSome = true) :
    divUnitImpl w w v = some v := by
  cases w
  case Div n d =>
    by_cases hc : (fromUnitLinear n n && fromUnitLinear d d) = true
    · rw [divUnitImpl, if_pos hc]
      obtain ⟨hn, hd⟩ := Bool.and_eq_true_iff.mp hc
      rw [linConv_self hn, linConv_self hd, div_one]
    · rw [divUnitImpl, if_neg hc] at h
      cases h
  all_goals simp [divUnitImpl] at h

theorem fromUnitCore_self (w : MUnit) (v : ℚ) (h : (fromUnitCore w w v).isSome = true) :
    fromUnitCore w w v = some v := by
  by_cases hl : fromUnitLinear w w = true
  · rw [fromUnitCore, if_pos hl, linConv_self hl]
  · rw [fromUnitCore, if_neg hl] at h ⊢
    exact divUnitImpl_self w v h

/-- The list of ordered (from, to) pairs that the `@cartesian_product` rules of
`define_linear_conversions!` expand a family declaration into (macros.rs,
lines 77-91): every left entry is paired with every right entry. -/
def linearRelations (fam : List (MUnit × ℚ)) : List ((MUnit × ℚ) × (MUnit × ℚ)) :=
  fam.flatMap (fun l => fam.map (fun r => (l, r)))

theorem flatMap_pairs_length (l m : List (MUnit × ℚ)) :
    (l.flatMap (fun a => m.map (fun r => (a, r)))).length = l.length * m.length := by
  induction l with
  | nil => simp
  | cons a l ih =>
    simp only [List.flatMap_cons, List.length_append, List.length_map, ih,
      List.length_cons, Nat.succ_mul]
    omega

theorem linearRelations_length (fam : List (MUnit × ℚ)) :
    (linearRelations fam).length = fam.length ^ 2 := by
  rw [linearRelations, flatMap_pairs_length, pow_two]

theorem mem_linearRelations {fam : List (MUnit × ℚ)} {l r : MUnit × ℚ}
    (h : (l, r) ∈ linearRelations fam) : l ∈ fam ∧ r ∈ fam := by
  simp only [linearRelations, List.mem_flatMap, List.mem_map] at h
  obtain ⟨a, ha, b, hb, hab⟩ := h
  rw [Prod.mk.injEq] at hab
  obtain ⟨h1, h2⟩ := hab
  subst h1
  subst h2
  exact ⟨ha, hb⟩

/-! ### Claim theorems -/

/-- C1: Ratio-unit conversion synthesis: whenever `N1` has a declared linear
relation from `N` and `D1` has one from `D`, the synthesized conversion
`DivUnit<N,D> → DivUnit<N1,D1>` converts the magnitude as a value of `N` into
`N1`, separately converts a reference value of magnitude 1 from `D` into `D1`,
and divides the two results; concretely
`Measurement<DivUnit<Megabit,Hour>>(1.0) + Measurement<DivUnit<Kilobit,Second>>(1.0)`
has magnitude `1.0 + 1.0*3600/1000 = 4.6`. -/
theorem ratio_conversion_synthesis :
    (∀ n d n1 d1 : MUnit, ∀ v : ℚ,
        fromUnitLinear n1 n = true → fromUnitLinear d1 d = true →
        ∃ a b : ℚ, from_value? n1 n v = some a ∧ from_value? d1 d 1 = some b ∧
          from_value? (MUnit.Div n1 d1) (MUnit.Div n d) v = some (a / b))
    ∧ Measurement.add ⟨MUnit.Div MUnit.Megabit MUnit.Hour, 1⟩
        ⟨MUnit.Div MUnit.Kilobit MUnit.Second, 1⟩
        = some ⟨MUnit.Div MUnit.Megabit MUnit.Hour, 4.6⟩ := by
  constructor
  · intro n d n1 d1 v hn hd
    exact ⟨linConv n1 n v, linConv d1 d 1, from_value_of_linear hn v,
      from_value_of_linear hd 1, from_value_div hn hd v⟩
  · rw [show Measurement.add ⟨MUnit.Div MUnit.Megabit MUnit.Hour, 1⟩
        ⟨MUnit.Div MUnit.Kilobit MUnit.Second, 1⟩
        = some ⟨MUnit.Div MUnit.Megabit MUnit.Hour,
            1 + 1 * 1000 / 1000000 / (1 * 1 / 3600)⟩ from rfl]
    norm_num

/-- Witness for the ratio-synthesis theorem at the declared
Kilobit→Megabit and Second→Hour linear relations. -/
theorem ratio_conversion_synthesis_witness :
    fromUnitLinear MUnit.Megabit MUnit.Kilobit = true
    ∧ fromUnitLinear MUnit.Hour MUnit.Second = true
    ∧ ∃ a b : ℚ, from_value? MUnit.Megabit MUnit.Kilobit 1 = some a
        ∧ from_value? MUnit.Hour MUnit.Second 1 = some b
        ∧ from_value? (MUnit.Div MUnit.Megabit MUnit.Hour)
            (MUnit.Div MUnit.Kilobit MUnit.Second) 1 = some (a / b) :=
  ⟨by decide, by decide,
    ratio_conversion_synthesis.1 MUnit.Kilobit MUnit.Second MUnit.Megabit MUnit.Hour 1
      (by decide) (by decide)⟩

/-- C2: Linear-family declaration: for each declared family of N (unit, scale)
entries, the cartesian-product expansion registers, for every ordered pair
(L, R), a directed conversion whose result is `value_in_L * scale(L) / scale(R)`
— N² directed relations from one declaration — and the N self-pairs are
identities (exact over the rationals, hence within floating tolerance). -/
theorem linear_family_declaration :
    ∀ fam ∈ families,
      (linearRelations fam).length = fam.length ^ 2
      ∧ (∀ pr ∈ linearRelations fam, ∀ v : ℚ,
          from_value? pr.2.1 pr.1.1 v = some (v * pr.1.2 / pr.2.2))
      ∧ (∀ p ∈ fam, ∀ v : ℚ, from_value? p.1 p.1 v = some v) := by
  intro fam hfam
  refine ⟨linearRelations_length fam, ?_, ?_⟩
  · intro pr hpr v
    obtain ⟨⟨L, sL⟩, ⟨R, sR⟩⟩ := pr
    obtain ⟨h1, h2⟩ := mem_linearRelations hpr
    exact from_value_family hfam h1 h2 v
  · intro p hp v
    obtain ⟨u, s⟩ := p
    have h := from_value_family hfam hp hp v
    have hs0 : s ≠ 0 := by
      have hfam' : fam = timeFamily ∨ fam = bitsFamily := by
        simpa [families] using hfam
      rcases hfam' with rfl | rfl
      · exact timeFamily_scales_ne_zero (u, s) hp
      · exact bitsFamily_scales_ne_zero (u, s) hp
    rw [h, mul_div_assoc, div_self hs0, mul_one]

/-- Witness for the linear-family declaration theorem at the declared time
family. -/
theorem linear_family_declaration_witness :
    timeFamily ∈ families
    ∧ (linearRelations timeFamily).length = timeFamily.length ^ 2
    ∧ from_value? MUnit.Hour MUnit.Second 1 = some (1 * 1 / 3600)
    ∧ from_value? MUnit.Hour MUnit.Hour 5 = some 5 := by
  have h := linear_family_declaration timeFamily (by decide)
  refine ⟨by decide, h.1, ?_, ?_⟩
  · exact h.2.1 ((MUnit.Second, 1), (MUnit.Hour, 3600)) (by decide) 1
  · exact h.2.2 (MUnit.Hour, 3600) (by decide) 5

/-- C3: Binary-operator resolution: when the left unit's canonical (de-aliased)
form has a conversion from the right unit, addition and subtraction first
convert the right magnitude into the left unit, then combine the magnitudes
with plain addition or subtraction, and the result carries the left unit. -/
theorem binary_operator_resolution :
    ∀ a b : Measurement, ∀ w : ℚ,
      from_value? a.unit.aliasedUnit b.unit b.value = some w →
      Measurement.add a b = some ⟨a.unit, a.value + w⟩
      ∧ Measurement.sub a b = some ⟨a.unit, a.value - w⟩ := by
  intro a b w h
  constructor
  · simp [Measurement.add, into_unit, h]
  · simp [Measurement.sub, into_unit, h]

/-- Witness for the binary-operator resolution theorem at
`2 h + 3600 s` and `2 h - 3600 s`. -/
theorem binary_operator_resolution_witness :
    from_value? (MUnit.Hour).aliasedUnit MUnit.Second (3600 : ℚ) = some 1
    ∧ Measurement.add ⟨MUnit.Hour, 2⟩ ⟨MUnit.Second, 3600⟩ = some ⟨MUnit.Hour, 2 + 1⟩
    ∧ Measurement.sub ⟨MUnit.Hour, 2⟩ ⟨MUnit.Second, 3600⟩ = some ⟨MUnit.Hour, 2 - 1⟩ := by
  have hc : from_value? (MUnit.Hour).aliasedUnit MUnit.Second (3600 : ℚ) = some 1 := by
    rw [show from_value? (MUnit.Hour).aliasedUnit MUnit.Second (3600 : ℚ)
        = some (3600 * 1 / 3600) from rfl]
    norm_num
  have h := binary_operator_resolution ⟨MUnit.Hour, 2⟩ ⟨MUnit.Second, 3600⟩ 1 hc
  exact ⟨hc, h.1, h.2⟩

/-- C4 counterexample: there is no implicit reflexive conversion for every
unit: for the nested ratio unit `DivUnit<DivUnit<Bit,Second>,Second>` the
same-unit conversion does not resolve at all (in Rust, `into_unit` to the very
same unit does not type-check for it, since `DivUnit<Bit,Second>` has no
`FromUnitLinear` relation from itself). -/
theorem self_conversion_cex :
    into_unit (MUnit.Div (MUnit.Div MUnit.Bit MUnit.Second) MUnit.Second)
      (MUnit.Div (MUnit.Div MUnit.Bit MUnit.Second) MUnit.Second) 1 = none := rfl

/-- C4 (amended): whenever the same-unit conversion resolves at all — family
self-pairs from the cartesian product, ratio units over family units, aliases
of those — it returns the magnitude unchanged; but the reflexive relation is
generated by those declarations, not implicit for every unit. -/
theorem self_conversion_amended :
    ∀ (u : MUnit) (v : ℚ), (into_unit u u v).isSome = true → into_unit u u v = some v := by
  intro u v h
  rw [into_unit, from_value?] at h ⊢
  exact fromUnitCore_self u.aliasedUnit v h

/-- Witness for the amended self-conversion theorem at `Hour`. -/
theorem self_conversion_amended_witness :
    (into_unit MUnit.Hour MUnit.Hour 5).isSome = true
    ∧ into_unit MUnit.Hour MUnit.Hour 5 = some 5 :=
  ⟨rfl, self_conversion_amended MUnit.Hour 5 rfl⟩

/-- C5 counterexample: `Measurement<Second>(3600.0) + Measurement<Hour>(2.0)`
does not have magnitude 7200: the code computes `3600 + 2*3600 = 10800`
(the claim's own general formula `b.value + a.value*3600` also gives 10800). -/
theorem time_addition_cex :
    Measurement.add ⟨MUnit.Second, 3600⟩ ⟨MUnit.Hour, 2⟩
      ≠ some ⟨MUnit.Second, 7200⟩ := by
  rw [show Measurement.add ⟨MUnit.Second, 3600⟩ ⟨MUnit.Hour, 2⟩
      = some ⟨MUnit.Second, 3600 + 2 * 3600 / 1⟩ from rfl]
  intro h
  rw [Option.some.injEq, Measurement.mk.injEq] at h
  norm_num at h

/-- C5 (amended): with Hour and Second in the declared linear family,
`a + b` in Hour equals `a.value + b.value/3600` and `b + a` in Second equals
`b.value + a.value*3600`; concretely `2 h + 3600 s = 3 h` and
`3600 s + 2 h = 10800 s`. -/
theorem time_addition_amended :
    (∀ a b : ℚ,
        Measurement.add ⟨MUnit.Hour, a⟩ ⟨MUnit.Second, b⟩
          = some ⟨MUnit.Hour, a + b / 3600⟩
        ∧ Measurement.add ⟨MUnit.Second, b⟩ ⟨MUnit.Hour, a⟩
          = some ⟨MUnit.Second, b + a * 3600⟩)
    ∧ Measurement.add ⟨MUnit.Hour, 2⟩ ⟨MUnit.Second, 3600⟩ = some ⟨MUnit.Hour, 3⟩
    ∧ Measurement.add ⟨MUnit.Second, 3600⟩ ⟨MUnit.Hour, 2⟩
      = some ⟨MUnit.Second, 10800⟩ := by
  refine ⟨fun a b => ⟨?_, ?_⟩, ?_, ?_⟩
  · rw [show Measurement.add ⟨MUnit.Hour, a⟩ ⟨MUnit.Second, b⟩
        = some ⟨MUnit.Hour, a + b * 1 / 3600⟩ from rfl, mul_one]
  · rw [show Measurement.add ⟨MUnit.Second, b⟩ ⟨MUnit.Hour, a⟩
        = some ⟨MUnit.Second, b + a * 3600 / 1⟩ from rfl, div_one]
  · rw [show Measurement.add ⟨MUnit.Hour, 2⟩ ⟨MUnit.Second, 3600⟩
        = some ⟨MUnit.Hour, 2 + 3600 * 1 / 3600⟩ from rfl]
    norm_num
  · rw [show Measurement.add ⟨MUnit.Second, 3600⟩ ⟨MUnit.Hour, 2⟩
        = some ⟨MUnit.Second, 3600 + 2 * 3600 / 1⟩ from rfl]
    norm_num

/-- Nonzero scales, for any declared family. -/
theorem scales_ne_zero {fam : List (MUnit × ℚ)} (hfam : fam ∈ families) :
    ∀ p ∈ fam, p.2 ≠ 0 := by
  have hfam' : fam = timeFamily ∨ fam = bitsFamily := by
    simpa [families] using hfam
  rcases hfam' with rfl | rfl
  · exact timeFamily_scales_ne_zero
  · exact bitsFamily_scales_ne_zero

/-- C6: Family round-trip: for every ordered pair (A, B) of entries of one
declared linear family and every magnitude `v`, converting `v` from A to B
gives `v * scale(A) / scale(B)`, and converting that back into A reproduces
`v` within an absolute tolerance of 0.1 (exactly, over the rationals). -/
theorem family_round_trip :
    ∀ fam ∈ families, ∀ pa ∈ fam, ∀ pb ∈ fam, ∀ v : ℚ,
      ∃ w w' : ℚ, from_value? pb.1 pa.1 v = some w ∧ w = v * pa.2 / pb.2
        ∧ from_value? pa.1 pb.1 w = some w' ∧ |w' - v| < 1 / 10 := by
  intro fam hfam pa hpa pb hpb v
  obtain ⟨a, sa⟩ := pa
  obtain ⟨b, sb⟩ := pb
  have hsa : sa ≠ 0 := scales_ne_zero hfam (a, sa) hpa
  have hsb : sb ≠ 0 := scales_ne_zero hfam (b, sb) hpb
  have h1 := from_value_family hfam hpa hpb v
  have h2 := from_value_family hfam hpb hpa (v * sa / sb)
  refine ⟨v * sa / sb, v * sa / sb * sb / sa, h1, rfl, h2, ?_⟩
  have hv : v * sa / sb * sb / sa = v := by
    field_simp
  rw [hv, sub_self, abs_zero]
  norm_num

/-- Witness for the family round-trip theorem at Hour → Second → Hour. -/
theorem family_round_trip_witness :
    timeFamily ∈ families ∧ (MUnit.Hour, (3600 : ℚ)) ∈ timeFamily
    ∧ (MUnit.Second, (1 : ℚ)) ∈ timeFamily
    ∧ ∃ w w' : ℚ, from_value? MUnit.Second MUnit.Hour 2 = some w
        ∧ w = 2 * 3600 / 1
        ∧ from_value? MUnit.Hour MUnit.Second w = some w' ∧ |w' - 2| < 1 / 10 :=
  ⟨by decide, by decide, by decide,
    family_round_trip timeFamily (by decide) (MUnit.Hour, 3600) (by decide)
      (MUnit.Second, 1) (by decide) 2⟩

/-- Alias chains in the crate are one hop deep: `AliasedUnit` is idempotent on
every declared unit type. -/
theorem aliasedUnit_idem : ∀ x : MUnit, x.aliasedUnit.aliasedUnit = x.aliasedUnit := by
  intro x
  cases x <;> rfl

/-- C7: Alias transparency: for an alias unit, conversions from the alias
forward to its underlying unit at the same magnitude, conversions into the
alias resolve exactly as conversions into the underlying unit, and substituting
the alias for the underlying unit on either side of `+`/`-` yields identical
numeric results. -/
theorem alias_transparency :
    ∀ x : MUnit, x.isAlias = true →
      x.aliasedUnit.aliasedUnit = x.aliasedUnit
      ∧ (∀ t : MUnit, ∀ v : ℚ, from_value? t x v = from_value? t x.aliasedUnit v)
      ∧ (∀ s : MUnit, ∀ v : ℚ, into_unit x s v = into_unit x.aliasedUnit s v)
      ∧ (∀ a : Measurement, ∀ y : ℚ,
          Measurement.add a ⟨x, y⟩ = Measurement.add a ⟨x.aliasedUnit, y⟩
          ∧ Measurement.sub a ⟨x, y⟩ = Measurement.sub a ⟨x.aliasedUnit, y⟩)
      ∧ (∀ b : Measurement, ∀ y : ℚ,
          (Measurement.add ⟨x, y⟩ b).map Measurement.value
            = (Measurement.add ⟨x.aliasedUnit, y⟩ b).map Measurement.value
          ∧ (Measurement.sub ⟨x, y⟩ b).map Measurement.value
            = (Measurement.sub ⟨x.aliasedUnit, y⟩ b).map Measurement.value) := by
  intro x _
  have hau := aliasedUnit_idem x
  refine ⟨hau, ?_, ?_, ?_, ?_⟩
  · intro t v
    rw [from_value?, from_value?, hau]
  · intro s v
    rw [into_unit, into_unit, from_value?, from_value?, hau]
  · intro a y
    constructor
    · simp only [Measurement.add, into_unit, from_value?, hau]
    · simp only [Measurement.sub, into_unit, from_value?, hau]
  · intro b y
    constructor
    · simp only [Measurement.add, Option.map_map, into_unit, from_value?, hau]
      rfl
    · simp only [Measurement.sub, Option.map_map, into_unit, from_value?, hau]
      rfl

/-- Witness for the alias-transparency theorem at the `Kbps` alias. -/
theorem alias_transparency_witness :
    MUnit.Kbps.isAlias = true
    ∧ into_unit MUnit.Kbps (MUnit.Div MUnit.Megabit MUnit.Hour) 1
      = into_unit MUnit.Kbps.aliasedUnit (MUnit.Div MUnit.Megabit MUnit.Hour) 1
    ∧ Measurement.add ⟨MUnit.Div MUnit.Megabit MUnit.Hour, 1⟩ ⟨MUnit.Kbps, 1⟩
      = Measurement.add ⟨MUnit.Div MUnit.Megabit MUnit.Hour, 1⟩
          ⟨MUnit.Kbps.aliasedUnit, 1⟩ := by
  have h := alias_transparency MUnit.Kbps rfl
  exact ⟨rfl, h.2.2.1 (MUnit.Div MUnit.Megabit MUnit.Hour) 1,
    (h.2.2.2.1 ⟨MUnit.Div MUnit.Megabit MUnit.Hour, 1⟩ 1).1⟩

/-- C8: Display formatting: a measurement renders as the value's default float
text, a space, and the unit's symbol; a ratio unit's symbol is
`<numerator>/<denominator>`; `Measurement<Hour>(42.42)` renders as "42.42 h";
an alias renders with its own symbol, not the underlying unit's. -/
theorem display_formatting :
    (∀ (r : ℚ → String) (u : MUnit) (v : ℚ),
        Measurement.display r ⟨u, v⟩ = r v ++ " " ++ u.symbol)
    ∧ (∀ n d : MUnit, (MUnit.Div n d).symbol = n.symbol ++ "/" ++ d.symbol)
    ∧ (∀ r : ℚ → String, r (42.42 : ℚ) = "42.42" →
        Measurement.display r ⟨MUnit.Hour, 42.42⟩ = "42.42 h")
    ∧ (∀ (r : ℚ → String) (v : ℚ),
        Measurement.display r ⟨MUnit.Kbps, v⟩ = r v ++ " " ++ "Kbps")
    ∧ MUnit.Kbps.symbol = "Kbps" ∧ MUnit.Kbps.aliasedUnit.symbol = "Kb/s" := by
  refine ⟨fun r u v => rfl, fun n d => rfl, ?_, fun r v => rfl, rfl, rfl⟩
  intro r hr
  rw [Measurement.display]
  rw [show (⟨MUnit.Hour, 42.42⟩ : Measurement).value = (42.42 : ℚ) from rfl, hr]
  rfl

/-- Witness for the display-formatting theorem with a renderer that prints
42.42 the way Rust's float Display does. -/
theorem display_formatting_witness :
    (fun _ : ℚ => "42.42") (42.42 : ℚ) = "42.42"
    ∧ Measurement.display (fun _ : ℚ => "42.42") ⟨MUnit.Hour, 42.42⟩ = "42.42 h" :=
  ⟨rfl, display_formatting.2.2.1 (fun _ : ℚ => "42.42") rfl⟩

/-- C9: Each in-place operator leaves the left operand with the same magnitude
as its pure counterpart: `+=` with `+`, `-=` with `-`, `*=` with `*`,
`/=` with `/`. -/
theorem assign_operators_agree :
    ∀ (a b : Measurement) (s : ℚ),
      Measurement.addAssign a b = Measurement.add a b
      ∧ Measurement.subAssign a b = Measurement.sub a b
      ∧ Measurement.mulAssign a s = Measurement.mul a s
      ∧ Measurement.divAssign a s = Measurement.div a s :=
  fun _ _ _ => ⟨rfl, rfl, rfl, rfl⟩

/-- C10: Cross-unit comparison converts only the right operand into the left
operand's unit: `a == b` holds exactly when `a`'s magnitude equals `b`'s
converted magnitude, and `partial_cmp` compares `a`'s magnitude against `b`'s
converted magnitude. -/
theorem cross_unit_comparison :
    ∀ (a b : Measurement) (w : ℚ),
      into_unit a.unit b.unit b.value = some w →
      Measurement.peq a b = some (a.value == w)
      ∧ (Measurement.peq a b = some true ↔ a.value = w)
      ∧ Measurement.pcmp a b = some (compare a.value w) := by
  intro a b w h
  refine ⟨?_, ?_, ?_⟩
  · rw [Measurement.peq, h]
    rfl
  · rw [Measurement.peq, h]
    simp only [Option.map_some', Option.some.injEq, beq_iff_eq]
  · rw [Measurement.pcmp, h]
    rfl

/-- Witness for the cross-unit comparison theorem at `1 h` versus `3600 s`. -/
theorem cross_unit_comparison_witness :
    into_unit MUnit.Hour MUnit.Second 3600 = some 1
    ∧ Measurement.peq ⟨MUnit.Hour, 1⟩ ⟨MUnit.Second, 3600⟩ = some ((1 : ℚ) == 1)
    ∧ (Measurement.peq ⟨MUnit.Hour, 1⟩ ⟨MUnit.Second, 3600⟩ = some true
        ↔ (1 : ℚ) = 1)
    ∧ Measurement.pcmp ⟨MUnit.Hour, 1⟩ ⟨MUnit.Second, 3600⟩
      = some (compare (1 : ℚ) 1) := by
  have hc : into_unit MUnit.Hour MUnit.Second 3600 = some 1 := by
    rw [show into_unit MUnit.Hour MUnit.Second 3600 = some (3600 * 1 / 3600) from rfl]
    norm_num
  have h := cross_unit_comparison ⟨MUnit.Hour, 1⟩ ⟨MUnit.Second, 3600⟩ 1 hc
  exact ⟨hc, h.1, h.2.1, h.2.2⟩
